import Mathlib

/-!
Verification of the rating-comparison core of `src/main.rs` (an
inversion-count based user-similarity ranker).

Shallow embedding conventions:
* Rust `u32` values are modelled as `Nat`; comparisons between them agree
  with `Nat` comparisons, and the `u32` inversion-count accumulator of
  `sort_and_count_inversions` is modelled with explicit `% 4294967296`
  (wrap-around on overflow, `2 ^ 32`).
* Rust panics (`unwrap` on `None`, out-of-bounds indexing) are modelled by
  `Option`: a panic is `none`.
* `sort_and_count_inversions` in the source has no base case for an empty
  slice (it only tests `length == 1`), so on an empty slice it recurses on
  the same empty slice forever.  The recursion is therefore modelled with
  explicit fuel (`sciFuel`); divergence is `none` at every fuel.  For a
  non-empty argument, fuel `length + 1` is enough (proved below), so the
  wrapper `sort_and_count_inversions` uses that fuel.
-/

/-- Embedding of `merge_and_count_split_inversions` (src/main.rs:131-167).
The Rust function receives one buffer plus `mid`; here the two halves
`array[0..mid]` and `array[mid..]` are passed as two lists.  Emitting a
right element adds `l_length - l_pointer`, the number of unconsumed left
elements, i.e. the length of the remaining left list.  The `usize`
accumulator is exact here; the final `as u32` cast is applied at the call
site in `sciFuel`. -/
def mergeAndCount : List Nat → List Nat → List Nat × Nat
  | [], r => (r, 0)
  | l, [] => (l, 0)
  | a :: l, b :: r =>
    if a ≤ b then
      let p := mergeAndCount l (b :: r)
      (a :: p.1, p.2)
    else
      let p := mergeAndCount (a :: l) r
      (b :: p.1, p.2 + (a :: l).length)
termination_by l r => l.length + r.length

/-- Embedding of `sort_and_count_inversions` (src/main.rs:116-129) with
explicit fuel.  The source tests only `length == 1` before recursing on
`array[0..mid]` and `array[mid..]` with `mid = length / 2`, so an empty
slice recurses on itself; `none` models that divergence.  The three `u32`
counters are combined with wrap-around semantics: the two recursive results
are already reduced, the split count is cast `usize -> u32`, and each `u32`
addition is taken `% 4294967296`. -/
def sciFuel : Nat → List Nat → Option (List Nat × Nat)
  | 0, _ => none
  | f + 1, l =>
    if l.length = 1 then some (l, 0)
    else
      match sciFuel f (l.take (l.length / 2)), sciFuel f (l.drop (l.length / 2)) with
      | some L, some R =>
          let M := mergeAndCount L.1 R.1
          some (M.1, ((L.2 + R.2) % 4294967296 + M.2 % 4294967296) % 4294967296)
      | _, _ => none

/-- `sort_and_count_inversions` run with fuel `length + 1`, which is proved
sufficient for every non-empty list (`sciFuel_some`); the result pairs the
final contents of the mutable slice with the returned `u32` count. -/
def sort_and_count_inversions (l : List Nat) : Option (List Nat × Nat) :=
  sciFuel (l.length + 1) l

/-- Modelled from the spec: the brute-force O(n²) inversion count, the
number of index pairs (i, j) with i < j and value[i] > value[j]. -/
def bruteCount : List Nat → Nat
  | [] => 0
  | a :: t => t.countP (fun b => decide (b < a)) + bruteCount t

/-- Number of split inversions between a left and a right list: pairs of a
left element and a right element where the left one is greater (proof-side
helper). -/
def splitInv (l : List Nat) : List Nat → Nat
  | [] => 0
  | b :: r => l.countP (fun x => decide (b < x)) + splitInv l r

/-- Embedding of `.iter().position(|mark| *mark == i)` (src/main.rs:104-107):
index of the first occurrence of `mark`, `none` when absent. -/
def position (mark : Nat) : List Nat → Option Nat
  | [] => none
  | x :: l => if x = mark then some 0 else (position mark l).map (· + 1)

/-- One iteration of the collision loop body (src/main.rs:103-108): find the
index the target user ranked `i`, then read the comparison user's rating at
that index (`rating[index]`, whose potential panic is `none`). -/
def rankLookup (trow rating : List Nat) (i : Nat) : Option Nat :=
  (position i trow).bind (fun index => rating[index]?)

/-- The collision-vector loop `for i in 1..=films` unrolled over an explicit
list of rank values. -/
def buildCollisionAux (trow rating : List Nat) : List Nat → Option (List Nat)
  | [] => some []
  | i :: is => (rankLookup trow rating i).bind
      (fun v => (buildCollisionAux trow rating is).map (fun c => v :: c))

/-- Collision vector of one comparison row against the target row
(src/main.rs:102-109): ranks `1..=films` in order. -/
def buildCollision (trow rating : List Nat) (films : Nat) : Option (List Nat) :=
  buildCollisionAux trow rating (List.range' 1 films)

/-- The outer loop of `get_rating_collisions` (src/main.rs:101-111) over the
comparison rows. -/
def collideAll (trow : List Nat) (films : Nat) :
    List (Nat × List Nat) → Option (List (Nat × List Nat))
  | [] => some []
  | r :: rest => (buildCollision trow r.2 films).bind
      (fun c => (collideAll trow films rest).map (fun cs => (r.1, c) :: cs))

/-- Embedding of `get_rating_collisions` (src/main.rs:87-114).
`films` is the length of the first row (`ratings.first().unwrap()`, panic =
`none` on an empty table); the target row is the LAST row whose id equals
`target_user_id` (`filter ... collect ... pop ... unwrap`, panic = `none`
when absent); every row whose id differs from `target_user_id` is a
comparison row. -/
def get_rating_collisions (ratings : List (Nat × List Nat)) (target_user_id : Nat) :
    Option (List (Nat × List Nat)) :=
  (ratings.head?).bind (fun first =>
    ((ratings.filter (fun r => r.1 == target_user_id)).getLast?).bind (fun target_user =>
      collideAll target_user.2 first.2.length
        (ratings.filter (fun r => r.1 != target_user_id))))

/-- The per-user counting loop of `make_recommendation_rating`
(src/main.rs:39-42): map each collision vector to its inversion count,
keeping the row order. -/
def countAll : List (Nat × List Nat) → Option (List (Nat × Nat))
  | [] => some []
  | p :: rest => (sort_and_count_inversions p.2).bind
      (fun r => (countAll rest).map (fun rs => (p.1, r.2) :: rs))

/-- Stable insertion of a (UserId, InversionCount) pair by count: the new
pair goes before the first strictly greater key and after equal keys seen so
far, which together with `sortByCount` models the stable
`inversions.sort_by(|a, b| a.1.cmp(&b.1))` of src/main.rs:44 (Rust's
`sort_by` is a stable sort). -/
def insertPair (x : Nat × Nat) : List (Nat × Nat) → List (Nat × Nat)
  | [] => [x]
  | y :: l => if x.2 ≤ y.2 then x :: y :: l else y :: insertPair x l

/-- Stable sort of the (UserId, InversionCount) list ascending by count. -/
def sortByCount : List (Nat × Nat) → List (Nat × Nat)
  | [] => []
  | x :: l => insertPair x (sortByCount l)

/-- The computational core of `make_recommendation_rating`
(src/main.rs:30-59): file parsing and writing are boundary concerns; given
the parsed RatingTable and the target id, build all collision vectors, count
inversions per comparison user, and stable-sort by count. -/
def make_recommendation_rating (ratings : List (Nat × List Nat)) (target_user_id : Nat) :
    Option (List (Nat × Nat)) :=
  (get_rating_collisions ratings target_user_id).bind (fun collisions =>
    (countAll collisions).map (fun inversions => sortByCount inversions))

/-! ### Correctness of the merge step -/

theorem mergeAndCount_perm : ∀ l r : List Nat, (mergeAndCount l r).1.Perm (l ++ r) := by
  intro l r
  induction l, r using mergeAndCount.induct with
  | case1 r => simp [mergeAndCount]
  | case2 l => simp [mergeAndCount]
  | case3 a l b r h ih =>
      simp only [mergeAndCount, if_pos h]
      exact ih.cons a
  | case4 a l b r h ih =>
      simp only [mergeAndCount, if_neg h]
      exact (ih.cons b).trans List.perm_middle.symm

theorem mergeAndCount_sorted :
    ∀ l r : List Nat, l.Sorted (· ≤ ·) → r.Sorted (· ≤ ·) →
      (mergeAndCount l r).1.Sorted (· ≤ ·) := by
  intro l r
  induction l, r using mergeAndCount.induct with
  | case1 r => intro _ hr; simpa [mergeAndCount] using hr
  | case2 l => intro hl _; simpa [mergeAndCount] using hl
  | case3 a l b r h ih =>
      intro hl hr
      rw [List.sorted_cons] at hl
      simp only [mergeAndCount, if_pos h]
      rw [List.sorted_cons]
      refine ⟨?_, ih hl.2 hr⟩
      intro x hx
      have hx2 : x ∈ l ++ b :: r := (mergeAndCount_perm l (b :: r)).mem_iff.mp hx
      rcases List.mem_append.mp hx2 with h1 | h1
      · exact hl.1 x h1
      · rcases List.mem_cons.mp h1 with rfl | h2
        · exact h
        · rw [List.sorted_cons] at hr
          exact le_trans h (hr.1 x h2)
  | case4 a l b r h ih =>
      intro hl hr
      rw [List.sorted_cons] at hr
      simp only [mergeAndCount, if_neg h]
      rw [List.sorted_cons]
      refine ⟨?_, ih hl hr.2⟩
      intro x hx
      have hb : b ≤ a := le_of_lt (Nat.lt_of_not_le h)
      have hx2 : x ∈ (a :: l) ++ r := (mergeAndCount_perm (a :: l) r).mem_iff.mp hx
      rcases List.mem_append.mp hx2 with h1 | h1
      · rcases List.mem_cons.mp h1 with rfl | h2
        · exact hb
        · rw [List.sorted_cons] at hl
          exact le_trans hb (hl.1 x h2)
      · exact hr.1 x h1

theorem splitInv_nil_left : ∀ r : List Nat, splitInv [] r = 0 := by
  intro r
  induction r with
  | nil => rfl
  | cons b r ih => simp [splitInv, ih]

theorem splitInv_cons_left (a : Nat) (l r : List Nat) :
    splitInv (a :: l) r = splitInv l r + r.countP (fun b => decide (b < a)) := by
  induction r with
  | nil => simp [splitInv]
  | cons b r ih =>
      simp only [splitInv, List.countP_cons, ih]
      by_cases h : b < a
      · simp [h]; omega
      · simp [h]; omega

theorem mergeAndCount_count :
    ∀ l r : List Nat, l.Sorted (· ≤ ·) → r.Sorted (· ≤ ·) →
      (mergeAndCount l r).2 = splitInv l r := by
  intro l r
  induction l, r using mergeAndCount.induct with
  | case1 r => intro _ _; simp [mergeAndCount, splitInv_nil_left]
  | case2 l => intro _ _; cases l <;> simp [mergeAndCount, splitInv]
  | case3 a l b r h ih =>
      intro hl hr
      rw [List.sorted_cons] at hl
      simp only [mergeAndCount, if_pos h]
      rw [ih hl.2 hr, splitInv_cons_left]
      have hz : (b :: r).countP (fun y => decide (y < a)) = 0 := by
        rw [List.countP_eq_zero]
        intro y hy
        rcases List.mem_cons.mp hy with rfl | h2
        · simpa using Nat.not_lt.mpr h
        · rw [List.sorted_cons] at hr
          simpa using Nat.not_lt.mpr (le_trans h (hr.1 y h2))
      omega
  | case4 a l b r h ih =>
      intro hl hr
      rw [List.sorted_cons] at hr
      simp only [mergeAndCount, if_neg h]
      rw [ih hl hr.2]
      have hb : b < a := Nat.lt_of_not_le h
      have hfull : (a :: l).countP (fun x => decide (b < x)) = (a :: l).length := by
        rw [List.countP_eq_length]
        intro x hx
        rcases List.mem_cons.mp hx with rfl | h2
        · simpa using hb
        · rw [List.sorted_cons] at hl
          simpa using lt_of_lt_of_le hb (hl.1 x h2)
      simp only [splitInv]
      omega

/-! ### Brute-force count algebra -/

theorem splitInv_cons_right (l : List Nat) (b : Nat) (r : List Nat) :
    splitInv l (b :: r) = l.countP (fun x => decide (b < x)) + splitInv l r := rfl

theorem bruteCount_append (l r : List Nat) :
    bruteCount (l ++ r) = bruteCount l + bruteCount r + splitInv l r := by
  induction l with
  | nil => simp [bruteCount, splitInv_nil_left]
  | cons a t ih =>
      have h1 : bruteCount ((a :: t) ++ r) =
          (t ++ r).countP (fun b => decide (b < a)) + bruteCount (t ++ r) := rfl
      have h2 : bruteCount (a :: t) =
          t.countP (fun b => decide (b < a)) + bruteCount t := rfl
      rw [h1, h2, List.countP_append, ih, splitInv_cons_left]
      omega

theorem splitInv_perm_left {l1 l2 : List Nat} (h : l1.Perm l2) (r : List Nat) :
    splitInv l1 r = splitInv l2 r := by
  induction r with
  | nil => rfl
  | cons b r ih => simp only [splitInv, ih, h.countP_eq]

theorem splitInv_perm_right (l : List Nat) {r1 r2 : List Nat} (h : r1.Perm r2) :
    splitInv l r1 = splitInv l r2 := by
  induction h with
  | nil => rfl
  | cons x _ ih => simp only [splitInv, ih]
  | swap x y r => simp only [splitInv]; omega
  | trans _ _ ih1 ih2 => omega

theorem bruteCount_small {l : List Nat} (h : l.length ≤ 1) : bruteCount l = 0 := by
  match l, h with
  | [], _ => rfl
  | [a], _ => simp [bruteCount]

theorem sorted_small {l : List Nat} (h : l.length ≤ 1) : l.Sorted (· ≤ ·) := by
  match l, h with
  | [], _ => simp
  | [a], _ => simp

/-! ### The fuelled recursion -/

theorem sciFuel_nil : ∀ f : Nat, sciFuel f [] = none := by
  intro f
  induction f with
  | zero => rfl
  | succ f ih => simp [sciFuel, ih]

theorem sciFuel_spec : ∀ f (l : List Nat) p, sciFuel f l = some p →
    p.1.Perm l ∧ p.1.Sorted (· ≤ ·) ∧ p.2 = bruteCount l % 4294967296 := by
  intro f
  induction f with
  | zero => intro l p h; simp [sciFuel] at h
  | succ f ih =>
      intro l p h
      by_cases h1 : l.length = 1
      · simp only [sciFuel, if_pos h1] at h
        obtain rfl : (l, 0) = p := by simpa using h
        refine ⟨List.Perm.refl l, sorted_small (le_of_eq h1), ?_⟩
        rw [bruteCount_small (le_of_eq h1)]
      · simp only [sciFuel, if_neg h1] at h
        rcases hL : sciFuel f (l.take (l.length / 2)) with _ | L
        · rw [hL] at h; simp at h
        rcases hR : sciFuel f (l.drop (l.length / 2)) with _ | R
        · rw [hL, hR] at h; simp at h
        rw [hL, hR] at h
        simp only [Option.some.injEq] at h
        obtain ⟨hLp, hLs, hLc⟩ := ih _ _ hL
        obtain ⟨hRp, hRs, hRc⟩ := ih _ _ hR
        have hsplit : l.take (l.length / 2) ++ l.drop (l.length / 2) = l :=
          List.take_append_drop _ l
        have hmp : (mergeAndCount L.1 R.1).1.Perm l := by
          refine (mergeAndCount_perm L.1 R.1).trans ?_
          refine ((hLp.append hRp).trans ?_)
          rw [hsplit]
        have hms : (mergeAndCount L.1 R.1).1.Sorted (· ≤ ·) :=
          mergeAndCount_sorted _ _ hLs hRs
        have hmc : (mergeAndCount L.1 R.1).2 =
            splitInv (l.take (l.length / 2)) (l.drop (l.length / 2)) := by
          rw [mergeAndCount_count _ _ hLs hRs, splitInv_perm_left hLp,
            splitInv_perm_right _ hRp]
        have hbc : bruteCount l =
            bruteCount (l.take (l.length / 2)) + bruteCount (l.drop (l.length / 2)) +
              splitInv (l.take (l.length / 2)) (l.drop (l.length / 2)) := by
          conv_lhs => rw [← hsplit]
          exact bruteCount_append _ _
        subst h
        refine ⟨hmp, hms, ?_⟩
        simp only [hmc, hLc, hRc, hbc]
        omega

theorem sciFuel_some : ∀ f (l : List Nat), l ≠ [] → l.length ≤ f →
    ∃ p, sciFuel f l = some p := by
  intro f
  induction f with
  | zero =>
      intro l hne hlen
      exact absurd (List.length_eq_zero.mp (Nat.le_zero.mp hlen)) hne
  | succ f ih =>
      intro l hne hlen
      by_cases h1 : l.length = 1
      · exact ⟨(l, 0), by simp [sciFuel, h1]⟩
      · have hlen2 : 2 ≤ l.length := by
          have : l.length ≠ 0 := fun h => hne (List.length_eq_zero.mp h)
          omega
        have htake : (l.take (l.length / 2)).length = l.length / 2 := by
          simp [List.length_take]; omega
        have hdrop : (l.drop (l.length / 2)).length = l.length - l.length / 2 := by
          simp [List.length_drop]
        obtain ⟨L, hL⟩ := ih (l.take (l.length / 2))
          (by
            intro hnil
            rw [hnil] at htake
            simp at htake
            omega)
          (by omega)
        obtain ⟨R, hR⟩ := ih (l.drop (l.length / 2))
          (by
            intro hnil
            rw [hnil] at hdrop
            simp at hdrop
            omega)
          (by omega)
        have hstep : sciFuel (f + 1) l =
            some ((mergeAndCount L.1 R.1).1,
              ((L.2 + R.2) % 4294967296 +
                (mergeAndCount L.1 R.1).2 % 4294967296) % 4294967296) := by
          simp only [sciFuel, h1, hL, hR, if_false, ite_false]
        exact ⟨_, hstep⟩

/-! ### The rank-position lookup -/

theorem position_of_mem {m : Nat} : ∀ {l : List Nat}, m ∈ l → ∃ j, position m l = some j := by
  intro l hm
  induction l with
  | nil => simp at hm
  | cons x l ih =>
      by_cases hx : x = m
      · exact ⟨0, by simp [position, hx]⟩
      · rcases List.mem_cons.mp hm with rfl | h2
        · exact absurd rfl hx
        · obtain ⟨j, hj⟩ := ih h2
          exact ⟨j + 1, by simp [position, hx, hj]⟩

theorem position_get {m : Nat} : ∀ {l : List Nat} {j : Nat}, position m l = some j →
    j < l.length ∧ l[j]? = some m := by
  intro l
  induction l with
  | nil => intro j h; simp [position] at h
  | cons x l ih =>
      intro j h
      by_cases hx : x = m
      · simp only [position, if_pos hx] at h
        obtain rfl : 0 = j := by simpa using h
        simp [hx]
      · simp only [position, if_neg hx] at h
        rcases hp : position m l with _ | j0
        · rw [hp] at h; simp at h
        · rw [hp] at h
          simp only [Option.map_some', Option.some.injEq] at h
          obtain ⟨h1, h2⟩ := ih hp
          subst h
          constructor
          · simpa using Nat.succ_lt_succ h1
          · simpa using h2

theorem getElem?_some_mem {m : Nat} : ∀ {l : List Nat} {j : Nat}, l[j]? = some m → m ∈ l := by
  intro l
  induction l with
  | nil => intro j h; simp at h
  | cons x l ih =>
      intro j h
      cases j with
      | zero =>
          obtain rfl : x = m := by simpa using h
          exact List.mem_cons_self x l
      | succ j =>
          rw [List.getElem?_cons_succ] at h
          exact List.mem_cons_of_mem x (ih h)

theorem position_of_get {m : Nat} : ∀ {l : List Nat} {j : Nat}, l.Nodup →
    l[j]? = some m → position m l = some j := by
  intro l
  induction l with
  | nil => intro j _ h; simp at h
  | cons x l ih =>
      intro j hnd h
      rw [List.nodup_cons] at hnd
      cases j with
      | zero =>
          obtain rfl : x = m := by simpa using h
          simp [position]
      | succ j =>
          rw [List.getElem?_cons_succ] at h
          have hm : m ∈ l := getElem?_some_mem h
          have hx : x ≠ m := fun he => hnd.1 (he ▸ hm)
          simp [position, hx, ih hnd.2 h]

theorem position_of_not_mem {m : Nat} : ∀ {l : List Nat}, m ∉ l → position m l = none := by
  intro l hm
  induction l with
  | nil => rfl
  | cons x l ih =>
      have hx : x ≠ m := fun he => hm (he ▸ List.mem_cons_self x l)
      have h2 : m ∉ l := fun h => hm (List.mem_cons_of_mem x h)
      simp [position, hx, ih h2]

/-! ### The collision-vector builder -/

theorem buildCollisionAux_some {trow rating : List Nat} :
    ∀ {is : List Nat}, (∀ i ∈ is, (rankLookup trow rating i).isSome) →
      ∃ cv, buildCollisionAux trow rating is = some cv := by
  intro is h
  induction is with
  | nil => exact ⟨[], rfl⟩
  | cons i is ih =>
      obtain ⟨v, hv⟩ := Option.isSome_iff_exists.mp (h i (List.mem_cons_self i is))
      obtain ⟨cv, hcv⟩ := ih (fun j hj => h j (List.mem_cons_of_mem i hj))
      exact ⟨v :: cv, by simp [buildCollisionAux, hv, hcv]⟩

theorem buildCollisionAux_length {trow rating : List Nat} :
    ∀ {is cv : List Nat}, buildCollisionAux trow rating is = some cv →
      cv.length = is.length := by
  intro is
  induction is with
  | nil =>
      intro cv h
      simp only [buildCollisionAux, Option.some.injEq] at h
      rw [← h]
  | cons i is ih =>
      intro cv h
      rw [buildCollisionAux] at h
      rcases hv : rankLookup trow rating i with _ | v
      · rw [hv] at h; simp at h
      rcases hc : buildCollisionAux trow rating is with _ | cv0
      · rw [hv, hc] at h; simp at h
      rw [hv, hc] at h
      simp only [Option.some_bind, Option.map_some', Option.some.injEq] at h
      rw [← h]
      simp [ih hc]

theorem buildCollisionAux_get {trow rating : List Nat} :
    ∀ {is cv : List Nat}, buildCollisionAux trow rating is = some cv →
      ∀ (k i : Nat), is[k]? = some i → cv[k]? = rankLookup trow rating i := by
  intro is
  induction is with
  | nil => intro cv _ k i hk; simp at hk
  | cons i0 is ih =>
      intro cv h k i hk
      rw [buildCollisionAux] at h
      rcases hv : rankLookup trow rating i0 with _ | v
      · rw [hv] at h; simp at h
      rcases hc : buildCollisionAux trow rating is with _ | cv0
      · rw [hv, hc] at h; simp at h
      rw [hv, hc] at h
      simp only [Option.some_bind, Option.map_some', Option.some.injEq] at h
      subst h
      cases k with
      | zero =>
          obtain rfl : i0 = i := by simpa using hk
          simp [hv]
      | succ k =>
          rw [List.getElem?_cons_succ] at hk
          rw [List.getElem?_cons_succ]
          exact ih hc k i hk

theorem buildCollisionAux_none {trow rating : List Nat} :
    ∀ {is : List Nat} {i : Nat}, i ∈ is → rankLookup trow rating i = none →
      buildCollisionAux trow rating is = none := by
  intro is
  induction is with
  | nil => intro i h; simp at h
  | cons i0 is ih =>
      intro i hmem hnone
      rw [buildCollisionAux]
      rcases List.mem_cons.mp hmem with rfl | h2
      · rw [hnone]; rfl
      · rcases hv : rankLookup trow rating i0 with _ | v
        · rfl
        · rw [ih h2 hnone]; rfl

theorem buildCollision_spec {trow rating : List Nat} {films : Nat}
    (h : trow.Perm (List.range' 1 films)) (hlen : rating.length = films) :
    ∃ cv, buildCollision trow rating films = some cv ∧ cv.length = films ∧
      ∀ (i j : Nat), trow[j]? = some (i + 1) → cv[i]? = rating[j]? := by
  have htl : trow.length = films := by rw [h.length_eq, List.length_range']
  have hnd : trow.Nodup := h.nodup_iff.mpr (List.nodup_range' 1 films)
  have hsucc : ∀ i ∈ List.range' 1 films, (rankLookup trow rating i).isSome := by
    intro i hi
    have hmem : i ∈ trow := h.mem_iff.mpr hi
    obtain ⟨j, hj⟩ := position_of_mem hmem
    obtain ⟨hjl, _⟩ := position_get hj
    rw [rankLookup, hj, Option.some_bind,
      List.getElem?_eq_getElem (show j < rating.length by omega)]
    rfl
  obtain ⟨cv, hcv⟩ := buildCollisionAux_some hsucc
  refine ⟨cv, hcv, ?_, ?_⟩
  · rw [buildCollisionAux_length hcv, List.length_range']
  · intro i j hij
    have hi1 : i + 1 ∈ trow := getElem?_some_mem hij
    have hir : i + 1 ∈ List.range' 1 films := h.mem_iff.mp hi1
    have hilt : i < films := by
      rw [List.mem_range'_1] at hir; omega
    have hrange : (List.range' 1 films)[i]? = some (i + 1) := by
      rw [List.getElem?_range' 1 1 hilt]
      congr 1
      omega
    have hcvi : cv[i]? = rankLookup trow rating (i + 1) :=
      buildCollisionAux_get hcv i (i + 1) hrange
    rw [hcvi, rankLookup, position_of_get hnd hij, Option.some_bind]

theorem collideAll_spec {trow : List Nat} {films : Nat}
    {Q : (Nat × List Nat) → List Nat → Prop} :
    ∀ {rows : List (Nat × List Nat)},
      (∀ r ∈ rows, ∃ cv, buildCollision trow r.2 films = some cv ∧ Q r cv) →
      ∃ cs, collideAll trow films rows = some cs ∧
        List.Forall₂ (fun r rc => rc.1 = r.1 ∧ Q r rc.2) rows cs := by
  intro rows h
  induction rows with
  | nil => exact ⟨[], rfl, List.Forall₂.nil⟩
  | cons r rest ih =>
      obtain ⟨cv, hcv, hQ⟩ := h r (List.mem_cons_self r rest)
      obtain ⟨cs, hcs, hF⟩ := ih (fun r2 h2 => h r2 (List.mem_cons_of_mem r h2))
      refine ⟨(r.1, cv) :: cs, ?_, List.Forall₂.cons ⟨rfl, hQ⟩ hF⟩
      rw [collideAll, hcv, hcs]
      rfl

theorem collideAll_none {trow : List Nat} {films : Nat} :
    ∀ {rows : List (Nat × List Nat)} {r : Nat × List Nat}, r ∈ rows →
      buildCollision trow r.2 films = none → collideAll trow films rows = none := by
  intro rows
  induction rows with
  | nil => intro r h; simp at h
  | cons r0 rest ih =>
      intro r hmem hnone
      rw [collideAll]
      rcases List.mem_cons.mp hmem with rfl | h2
      · simp [hnone]
      · rcases hv : buildCollision trow r0.2 films with _ | cv
        · rfl
        · simp [hv, ih h2 hnone]

theorem collideAll_ids {trow : List Nat} {films : Nat} :
    ∀ {rows cs : List (Nat × List Nat)}, collideAll trow films rows = some cs →
      cs.map Prod.fst = rows.map Prod.fst := by
  intro rows
  induction rows with
  | nil =>
      intro cs h
      simp only [collideAll, Option.some.injEq] at h
      rw [← h]
  | cons r rest ih =>
      intro cs h
      rw [collideAll] at h
      rcases hv : buildCollision trow r.2 films with _ | cv
      · rw [hv] at h; simp at h
      rcases hc : collideAll trow films rest with _ | cs0
      · rw [hv, hc] at h; simp at h
      rw [hv, hc] at h
      simp only [Option.some_bind, Option.map_some', Option.some.injEq] at h
      rw [← h]
      simp [ih hc]

theorem get_rating_collisions_eq (ratings : List (Nat × List Nat)) (target : Nat) :
    get_rating_collisions ratings target =
      (ratings.head?.map (fun r => r.2.length)).bind (fun films =>
        ((ratings.filter (fun r => r.1 == target)).getLast?).bind (fun trow =>
          collideAll trow.2 films (ratings.filter (fun r => r.1 != target)))) := by
  cases ratings <;> rfl

/-! ### The stable sort by inversion count -/

theorem mem_insertPair {x z : Nat × Nat} :
    ∀ {l : List (Nat × Nat)}, z ∈ insertPair x l ↔ z = x ∨ z ∈ l := by
  intro l
  induction l with
  | nil => simp [insertPair]
  | cons y l ih =>
      by_cases h : x.2 ≤ y.2
      · simp [insertPair, h]
      · simp only [insertPair, if_neg h, List.mem_cons, ih]
        tauto

theorem insertPair_sorted {x : Nat × Nat} :
    ∀ {l : List (Nat × Nat)}, l.Sorted (fun a b => a.2 ≤ b.2) →
      (insertPair x l).Sorted (fun a b => a.2 ≤ b.2) := by
  intro l hl
  induction l with
  | nil => simp [insertPair]
  | cons y l ih =>
      rw [List.sorted_cons] at hl
      by_cases h : x.2 ≤ y.2
      · rw [insertPair, if_pos h, List.sorted_cons]
        refine ⟨?_, List.sorted_cons.mpr hl⟩
        intro z hz
        rcases List.mem_cons.mp hz with rfl | h2
        · exact h
        · exact le_trans h (hl.1 z h2)
      · rw [insertPair, if_neg h, List.sorted_cons]
        refine ⟨?_, ih hl.2⟩
        intro z hz
        rcases mem_insertPair.mp hz with rfl | h2
        · exact le_of_lt (Nat.lt_of_not_le h)
        · exact hl.1 z h2

theorem sortByCount_sorted : ∀ l : List (Nat × Nat),
    (sortByCount l).Sorted (fun a b => a.2 ≤ b.2) := by
  intro l
  induction l with
  | nil => simp [sortByCount]
  | cons x l ih => exact insertPair_sorted ih

theorem insertPair_filter (x : Nat × Nat) (k : Nat) :
    ∀ l : List (Nat × Nat), (insertPair x l).filter (fun p => p.2 == k) =
      if x.2 = k then x :: l.filter (fun p => p.2 == k)
      else l.filter (fun p => p.2 == k) := by
  intro l
  induction l with
  | nil =>
      rw [insertPair]
      by_cases h : x.2 = k
      · simp [List.filter_cons, h]
      · simp [List.filter_cons, h]
  | cons y l ih =>
      by_cases h : x.2 ≤ y.2
      · rw [insertPair, if_pos h]
        by_cases hx : x.2 = k
        · simp [List.filter_cons, hx]
        · simp [List.filter_cons, hx]
      · rw [insertPair, if_neg h]
        rw [List.filter_cons, List.filter_cons, ih]
        by_cases hx : x.2 = k
        · have hy : ¬ y.2 = k := by
            intro hy
            exact h (le_of_eq (by omega))
          simp [hx, hy]
        · by_cases hy : y.2 = k
          · simp [hx, hy]
          · simp [hx, hy]

theorem sortByCount_filter : ∀ (l : List (Nat × Nat)) (k : Nat),
    (sortByCount l).filter (fun p => p.2 == k) = l.filter (fun p => p.2 == k) := by
  intro l k
  induction l with
  | nil => rfl
  | cons x l ih =>
      rw [sortByCount, insertPair_filter, List.filter_cons]
      by_cases hx : x.2 = k
      · simp [hx, ih]
      · simp [hx, ih]

/-! ### The per-user counting loop -/

theorem countAll_ids : ∀ {cs : List (Nat × List Nat)} {pre : List (Nat × Nat)},
    countAll cs = some pre → pre.map Prod.fst = cs.map Prod.fst := by
  intro cs
  induction cs with
  | nil =>
      intro pre h
      simp only [countAll, Option.some.injEq] at h
      rw [← h]
      rfl
  | cons p rest ih =>
      intro pre h
      rw [countAll] at h
      rcases hv : sort_and_count_inversions p.2 with _ | r
      · rw [hv] at h; simp at h
      rcases hc : countAll rest with _ | rs
      · rw [hv, hc] at h; simp at h
      rw [hv, hc] at h
      simp only [Option.some_bind, Option.map_some', Option.some.injEq] at h
      rw [← h]
      simp [ih hc]

theorem countAll_some : ∀ {cs : List (Nat × List Nat)},
    (∀ p ∈ cs, p.2 ≠ []) → ∃ pre, countAll cs = some pre := by
  intro cs h
  induction cs with
  | nil => exact ⟨[], rfl⟩
  | cons p rest ih =>
      obtain ⟨q, hq⟩ := sciFuel_some (p.2.length + 1) p.2
        (h p (List.mem_cons_self p rest)) (by omega)
      obtain ⟨pre, hpre⟩ := ih (fun p2 h2 => h p2 (List.mem_cons_of_mem p h2))
      refine ⟨(p.1, q.2) :: pre, ?_⟩
      rw [countAll, sort_and_count_inversions, hq, hpre]
      rfl

theorem countAll_counts : ∀ {cs : List (Nat × List Nat)} {pre : List (Nat × Nat)},
    countAll cs = some pre →
    List.Forall₂ (fun (p : Nat × List Nat) (q : Nat × Nat) =>
      q.1 = p.1 ∧ ∃ r, sort_and_count_inversions p.2 = some r ∧ q.2 = r.2) cs pre := by
  intro cs
  induction cs with
  | nil =>
      intro pre h
      simp only [countAll, Option.some.injEq] at h
      rw [← h]
      exact List.Forall₂.nil
  | cons p rest ih =>
      intro pre h
      rw [countAll] at h
      rcases hv : sort_and_count_inversions p.2 with _ | r
      · rw [hv] at h; simp at h
      rcases hc : countAll rest with _ | rs
      · rw [hv, hc] at h; simp at h
      rw [hv, hc] at h
      simp only [Option.some_bind, Option.map_some', Option.some.injEq] at h
      rw [← h]
      exact List.Forall₂.cons ⟨rfl, r, hv, rfl⟩ (ih hc)

theorem make_recommendation_rating_eq (ratings : List (Nat × List Nat)) (target : Nat)
    (cs : List (Nat × List Nat)) (pre : List (Nat × Nat))
    (hcs : get_rating_collisions ratings target = some cs)
    (hpre : countAll cs = some pre) :
    make_recommendation_rating ratings target = some (sortByCount pre) := by
  rw [make_recommendation_rating, hcs, Option.some_bind, hpre]
  rfl

/-! ### Further helper facts -/

theorem bruteCount_sorted_zero : ∀ {l : List Nat}, l.Sorted (· ≤ ·) → bruteCount l = 0 := by
  intro l hl
  induction l with
  | nil => rfl
  | cons a t ih =>
      rw [List.sorted_cons] at hl
      have hz : t.countP (fun b => decide (b < a)) = 0 := by
        rw [List.countP_eq_zero]
        intro b hb
        simpa using Nat.not_lt.mpr (hl.1 b hb)
      show t.countP (fun b => decide (b < a)) + bruteCount t = 0
      rw [hz, ih hl.2]

theorem sorted_range' (s n : Nat) : (List.range' s n).Sorted (· ≤ ·) :=
  (List.pairwise_lt_range' s n).imp le_of_lt

theorem buildCollisionAux_id {t r : List Nat} :
    ∀ {is : List Nat}, (∀ i ∈ is, rankLookup t r i = some i) →
      buildCollisionAux t r is = some is := by
  intro is h
  induction is with
  | nil => rfl
  | cons i0 is ih =>
      rw [buildCollisionAux, h i0 (List.mem_cons_self i0 is),
        ih (fun j hj => h j (List.mem_cons_of_mem i0 hj))]
      rfl

theorem getLast?_mem {α : Type} : ∀ {l : List α} {a : α}, l.getLast? = some a → a ∈ l := by
  intro l
  induction l with
  | nil => intro a h; simp at h
  | cons x t ih =>
      intro a h
      cases t with
      | nil =>
          obtain rfl : x = a := by simpa using h
          exact List.mem_cons_self x []
      | cons y t2 =>
          rw [List.getLast?_cons_cons] at h
          exact List.mem_cons_of_mem x (ih h)

theorem bruteCount_reverse_range : ∀ n : Nat,
    2 * bruteCount ((List.range n).reverse) = n * (n - 1) := by
  intro n
  induction n with
  | zero => rfl
  | succ m ih =>
      have hrev : (List.range (m + 1)).reverse = m :: (List.range m).reverse := by
        rw [List.range_succ, List.reverse_append]
        rfl
      have hcnt : ((List.range m).reverse).countP (fun b => decide (b < m)) = m := by
        rw [List.countP_eq_length.mpr, List.length_reverse, List.length_range]
        intro b hb
        rw [List.mem_reverse, List.mem_range] at hb
        simpa using hb
      have hstep : bruteCount ((List.range (m + 1)).reverse) =
          m + bruteCount ((List.range m).reverse) := by
        rw [hrev]
        show ((List.range m).reverse).countP (fun b => decide (b < m)) +
          bruteCount ((List.range m).reverse) = _
        rw [hcnt]
      rw [hstep, Nat.succ_sub_one]
      cases m with
      | zero => rfl
      | succ k =>
          have ih2 : 2 * bruteCount ((List.range (k + 1)).reverse) = (k + 1) * k := by
            rw [ih, Nat.succ_sub_one]
          nlinarith [ih2]

/-! ### C1, C2, C5, C9, C10: the inversion counter -/

/-- C1 (amended): for every sequence whose true inversion count is strictly
below 2^32, any value returned by `sort_and_count_inversions` equals the
brute-force pairwise inversion count of the original sequence. -/
theorem inversion_count_matches_bruteforce :
    ∀ (l : List Nat) (p : List Nat × Nat), bruteCount l < 4294967296 →
      sort_and_count_inversions l = some p → p.2 = bruteCount l := by
  intro l p hlt h
  rw [sort_and_count_inversions] at h
  rw [(sciFuel_spec _ _ _ h).2.2, Nat.mod_eq_of_lt hlt]

theorem inversion_count_matches_bruteforce_witness :
    (([1, 2, 3], 2) : List Nat × Nat).2 = bruteCount [3, 1, 2] :=
  inversion_count_matches_bruteforce [3, 1, 2] ([1, 2, 3], 2) (by decide)
    (by simp [sort_and_count_inversions, sciFuel, mergeAndCount])

/-- C1 counterexample: on the empty sequence the function returns no value
at all (it diverges) although the brute-force count is 0, and on a reversed
range of length 100000 (true count 4999950000 ≥ 2^32) the returned `u32`
value is the count reduced modulo 2^32, not the count itself. -/
theorem inversion_count_counterexample :
    sort_and_count_inversions [] = none ∧
    bruteCount ((List.range 100000).reverse) = 4999950000 ∧
    (sort_and_count_inversions ((List.range 100000).reverse)).map Prod.snd =
      some 704982704 ∧
    (704982704 : Nat) ≠ 4999950000 := by
  have hb : bruteCount ((List.range 100000).reverse) = 4999950000 := by
    have h := bruteCount_reverse_range 100000
    norm_num at h
    omega
  refine ⟨by rw [sort_and_count_inversions]; exact sciFuel_nil _, hb, ?_, by norm_num⟩
  have hne : (List.range 100000).reverse ≠ [] := by
    intro h
    have := congrArg List.length h
    simp at this
  obtain ⟨p, hp⟩ := sciFuel_some (((List.range 100000).reverse).length + 1)
    ((List.range 100000).reverse) hne (by omega)
  have hc := (sciFuel_spec _ _ _ hp).2.2
  rw [sort_and_count_inversions, hp]
  rw [Option.map_some']
  rw [hc, hb]

/-- C2: the claim is right and the code is wrong.  `sort_and_count_inversions`
only tests `length == 1`, and for an empty slice both recursive halves are
the empty slice again, so the call never returns (at every fuel the model
yields `none`); consequently an ItemCount of 0 makes the orchestrator
diverge instead of reporting 0 inversions for every comparison user. -/
theorem empty_slice_diverges :
    (∀ f : Nat, sciFuel f [] = none) ∧
    sort_and_count_inversions [] = none ∧
    make_recommendation_rating [(1, ([] : List Nat)), (2, ([] : List Nat))] 1 = none := by
  refine ⟨sciFuel_nil, by rw [sort_and_count_inversions]; exact sciFuel_nil _, by decide⟩

/-- C5: whenever `sort_and_count_inversions` returns, the sequence it leaves
behind (the first component of the model's result) is sorted in
non-decreasing order. -/
theorem sorted_after_return :
    ∀ (l : List Nat) (p : List Nat × Nat), sort_and_count_inversions l = some p →
      p.1.Sorted (· ≤ ·) := by
  intro l p h
  rw [sort_and_count_inversions] at h
  exact (sciFuel_spec _ _ _ h).2.1

theorem sorted_after_return_witness :
    (([1, 2], 1) : List Nat × Nat).1.Sorted (· ≤ ·) :=
  sorted_after_return [2, 1] ([1, 2], 1)
    (by simp [sort_and_count_inversions, sciFuel, mergeAndCount])

/-- C9: when the true inversion count is at most n(n-1)/2 and strictly below
2^32, the 32-bit accumulation (the usize-to-u32 cast of the split count and
the u32 additions) neither overflows nor truncates: the returned value is
the exact count. -/
theorem no_truncation_below_u32 :
    ∀ (l : List Nat) (p : List Nat × Nat),
      bruteCount l ≤ l.length * (l.length - 1) / 2 → bruteCount l < 4294967296 →
      sort_and_count_inversions l = some p → p.2 = bruteCount l := by
  intro l p _ hlt h
  rw [sort_and_count_inversions] at h
  rw [(sciFuel_spec _ _ _ h).2.2, Nat.mod_eq_of_lt hlt]

theorem no_truncation_below_u32_witness :
    (([1, 2, 3], 1) : List Nat × Nat).2 = bruteCount [2, 1, 3] :=
  no_truncation_below_u32 [2, 1, 3] ([1, 2, 3], 1) (by decide) (by decide)
    (by simp [sort_and_count_inversions, sciFuel, mergeAndCount])

/-- C10: for every non-empty sequence the call returns, and the sequence
left behind is a permutation of the original: no element is lost or
duplicated by the merge step. -/
theorem result_is_permutation :
    ∀ l : List Nat, l ≠ [] →
      ∃ p, sort_and_count_inversions l = some p ∧ p.1.Perm l := by
  intro l hne
  obtain ⟨p, hp⟩ := sciFuel_some (l.length + 1) l hne (by omega)
  refine ⟨p, ?_, (sciFuel_spec _ _ _ hp).1⟩
  rw [sort_and_count_inversions]
  exact hp

theorem result_is_permutation_witness :
    ∃ p, sort_and_count_inversions [2, 2, 1] = some p ∧ p.1.Perm [2, 2, 1] :=
  result_is_permutation [2, 2, 1] (by simp)

/-! ### C3, C4, C7, C8: the rank vector builder -/

/-- C3: for a RatingTable satisfying the permutation invariant (every row a
permutation of 1..=ItemCount) and a target row present, the collision vector
of each comparison row has length ItemCount and its 0-based position i holds
the rating the comparison user gave to the item the target user ranked i+1
(the index j with target[j] = i+1); in particular, target row [2,1,3] and
comparison row [5,9,1] give collision vector [9,5,1], whose inversion count
is 3. -/
theorem collision_vector_spec :
    (∀ (ratings : List (Nat × List Nat)) (target films : Nat) (trow : Nat × List Nat),
      (∀ r ∈ ratings, r.2.Perm (List.range' 1 films)) →
      (ratings.filter (fun r => r.1 == target)).getLast? = some trow →
      ∃ cs, get_rating_collisions ratings target = some cs ∧
        List.Forall₂ (fun r rc => rc.1 = r.1 ∧ rc.2.length = films ∧
          ∀ (i j : Nat), trow.2[j]? = some (i + 1) → rc.2[i]? = r.2[j]?)
          (ratings.filter (fun r => r.1 != target)) cs) ∧
    get_rating_collisions [(1, [2, 1, 3]), (2, [5, 9, 1])] 1 = some [(2, [9, 5, 1])] ∧
    sort_and_count_inversions [9, 5, 1] = some ([1, 5, 9], 3) := by
  refine ⟨?_, by decide, by simp [sort_and_count_inversions, sciFuel, mergeAndCount]⟩
  intro ratings target films trow hinv htrow
  rcases hhead : ratings.head? with _ | first
  · rw [List.head?_eq_none_iff] at hhead
    rw [hhead] at htrow
    simp at htrow
  have hfirst_mem : first ∈ ratings := by
    cases ratings with
    | nil => simp at hhead
    | cons a t =>
        obtain rfl : a = first := by simpa using hhead
        exact List.mem_cons_self a t
  have hfl : first.2.length = films := by
    rw [(hinv first hfirst_mem).length_eq, List.length_range']
  have htrow_mem : trow ∈ ratings :=
    (List.mem_filter.mp (getLast?_mem htrow)).1
  have htrowp : trow.2.Perm (List.range' 1 films) := hinv trow htrow_mem
  have hrows : ∀ r ∈ ratings.filter (fun r => r.1 != target),
      ∃ cv, buildCollision trow.2 r.2 films = some cv ∧
        (cv.length = films ∧
          ∀ (i j : Nat), trow.2[j]? = some (i + 1) → cv[i]? = r.2[j]?) := by
    intro r hr
    have hrmem : r ∈ ratings := (List.mem_filter.mp hr).1
    have hrlen : r.2.length = films := by
      rw [(hinv r hrmem).length_eq, List.length_range']
    obtain ⟨cv, h1, h2, h3⟩ := buildCollision_spec htrowp hrlen
    exact ⟨cv, h1, h2, h3⟩
  obtain ⟨cs, hcs, hF⟩ := collideAll_spec hrows
  refine ⟨cs, ?_, hF⟩
  rw [get_rating_collisions_eq, hhead, Option.map_some', Option.some_bind, htrow,
    Option.some_bind, hfl]
  exact hcs

theorem collision_vector_spec_witness :
    ∃ cs, get_rating_collisions [(1, [2, 1, 3]), (2, [3, 1, 2])] 1 = some cs ∧
      List.Forall₂ (fun r rc => rc.1 = r.1 ∧ rc.2.length = 3 ∧
        ∀ (i j : Nat), ((1, [2, 1, 3]) : Nat × List Nat).2[j]? = some (i + 1) →
          rc.2[i]? = r.2[j]?)
        (([(1, [2, 1, 3]), (2, [3, 1, 2])] : List (Nat × List Nat)).filter
          (fun r => r.1 != 1)) cs :=
  collision_vector_spec.1 [(1, [2, 1, 3]), (2, [3, 1, 2])] 1 3 (1, [2, 1, 3])
    (by decide) (by decide)

/-- C4 counterexample: both a missing target UserId and a missing rank value
in the target's row end in the same bare panic (modelled `none`); no
distinct inspectable error value exists anywhere in the core's result type. -/
theorem error_conditions_counterexample :
    get_rating_collisions [(1, [1])] 2 = none ∧
    get_rating_collisions [(1, [2, 2]), (3, [1, 1])] 1 = none := by
  exact ⟨by decide, by decide⟩

/-- C4 (amended): the core panics (modelled by `none`) via `unwrap` both
when the target UserId is absent from the RatingTable and when a rank value
1..=ItemCount is missing from the target's row; neither condition is
surfaced as a distinct, inspectable error value. -/
theorem missing_target_or_rank_panics :
    (∀ (ratings : List (Nat × List Nat)) (target : Nat),
      (∀ r ∈ ratings, r.1 ≠ target) → get_rating_collisions ratings target = none) ∧
    (∀ (ratings : List (Nat × List Nat)) (target films i0 : Nat) (trow : Nat × List Nat),
      ratings.head?.map (fun r => r.2.length) = some films →
      (ratings.filter (fun r => r.1 == target)).getLast? = some trow →
      ratings.filter (fun r => r.1 != target) ≠ [] →
      1 ≤ i0 → i0 ≤ films → i0 ∉ trow.2 →
      get_rating_collisions ratings target = none) := by
  constructor
  · intro ratings target h
    have hfil : ratings.filter (fun r => r.1 == target) = [] := by
      rw [List.filter_eq_nil_iff]
      intro a ha
      simpa using h a ha
    rw [get_rating_collisions_eq, hfil]
    cases hhead : ratings.head? with
    | none => rfl
    | some first => rfl
  · intro ratings target films i0 trow hhead htrow hrows h1 h2 hnot
    rw [get_rating_collisions_eq, hhead, Option.some_bind, htrow, Option.some_bind]
    rcases hr : ratings.filter (fun r => r.1 != target) with _ | ⟨r0, rest⟩
    · exact absurd hr hrows
    rw [hr]
    have hbc : buildCollision trow.2 r0.2 films = none := by
      rw [buildCollision]
      refine buildCollisionAux_none (i := i0) ?_ ?_
      · rw [List.mem_range'_1]
        omega
      · rw [rankLookup, position_of_not_mem hnot]
        rfl
    exact collideAll_none (List.mem_cons_self r0 rest) hbc

theorem missing_target_or_rank_panics_witness :
    get_rating_collisions [(5, [1])] 4 = none ∧
    get_rating_collisions [(1, [3, 3]), (2, [1, 2])] 1 = none :=
  ⟨missing_target_or_rank_panics.1 [(5, [1])] 4 (by decide),
    missing_target_or_rank_panics.2 [(1, [3, 3]), (2, [1, 2])] 1 2 1 (1, [3, 3])
      (by decide) (by decide) (by decide) (by decide) (by decide) (by decide)⟩

/-- C7 counterexample: with duplicate rows for UserId 1 and target 1, the
result contains only UserId 2: the other rows carrying the target's own
UserId are NOT included as comparison rows. -/
theorem duplicate_target_excluded :
    get_rating_collisions [(1, [1]), (1, [1]), (2, [1])] 1 = some [(2, [1])] ∧
    (1 : Nat) ∉ ([(2, [1])] : List (Nat × List Nat)).map Prod.fst := by
  exact ⟨by decide, by decide⟩

/-- C7 (amended): the outcome depends only on the first row's length, the
LAST row carrying the target's UserId (which becomes the target's rating
row) and the rows whose UserId differs from the target's (the comparison
rows, duplicates of other UserIds all included); rows carrying the target's
own UserId are excluded from the comparison rows. -/
theorem duplicate_rows_policy :
    (∀ (ratings ratings2 : List (Nat × List Nat)) (target : Nat),
      ratings.head?.map (fun r => r.2.length) =
        ratings2.head?.map (fun r => r.2.length) →
      (ratings.filter (fun r => r.1 == target)).getLast? =
        (ratings2.filter (fun r => r.1 == target)).getLast? →
      ratings.filter (fun r => r.1 != target) =
        ratings2.filter (fun r => r.1 != target) →
      get_rating_collisions ratings target = get_rating_collisions ratings2 target) ∧
    get_rating_collisions [(1, [1, 2]), (1, [2, 1]), (2, [1, 2])] 1 =
      some [(2, [2, 1])] ∧
    get_rating_collisions [(1, [1]), (2, [1]), (2, [1])] 1 =
      some [(2, [1]), (2, [1])] := by
  refine ⟨?_, by decide, by decide⟩
  intro ratings ratings2 target h1 h2 h3
  rw [get_rating_collisions_eq, get_rating_collisions_eq, h1, h2, h3]

theorem duplicate_rows_policy_witness :
    get_rating_collisions [(1, [1]), (2, [1])] 1 =
      get_rating_collisions [(1, [1]), (1, [1]), (2, [1])] 1 :=
  duplicate_rows_policy.1 [(1, [1]), (2, [1])] [(1, [1]), (1, [1]), (2, [1])] 1
    (by decide) (by decide) (by decide)

/-- C8 counterexample: for target row [2,1] and an identical comparison row,
the collision vector is [1,2], which is not the target's own rating vector
[2,1]; a self-comparison yields the identity ranking, not the row itself. -/
theorem self_comparison_not_own_vector :
    get_rating_collisions [(1, [2, 1]), (2, [2, 1])] 1 = some [(2, [1, 2])] ∧
    ([1, 2] : List Nat) ≠ [2, 1] := by
  exact ⟨by decide, by decide⟩

/-- C8 (amended): under the permutation invariant, the collision vector of
the target user against a row identical to their own equals the sequence
1..=ItemCount (not the target's own rating vector, unless that vector is
itself 1..=ItemCount), and its inversion count is 0. -/
theorem self_comparison_identity :
    (∀ (films : Nat) (trow : List Nat), trow.Perm (List.range' 1 films) →
      buildCollision trow trow films = some (List.range' 1 films) ∧
      bruteCount (List.range' 1 films) = 0) ∧
    get_rating_collisions [(1, [2, 1]), (2, [2, 1])] 1 = some [(2, [1, 2])] ∧
    sort_and_count_inversions [1, 2] = some ([1, 2], 0) := by
  refine ⟨?_, by decide, by simp [sort_and_count_inversions, sciFuel, mergeAndCount]⟩
  intro films trow hperm
  constructor
  · rw [buildCollision]
    refine buildCollisionAux_id ?_
    intro i hi
    have hmem : i ∈ trow := hperm.mem_iff.mpr hi
    obtain ⟨j, hj⟩ := position_of_mem hmem
    obtain ⟨hjl, hjget⟩ := position_get hj
    rw [rankLookup, hj, Option.some_bind]
    exact hjget
  · exact bruteCount_sorted_zero (sorted_range' 1 films)

theorem self_comparison_identity_witness :
    buildCollision [2, 1] [2, 1] 2 = some (List.range' 1 2) ∧
    bruteCount (List.range' 1 2) = 0 :=
  self_comparison_identity.1 2 [2, 1] (by decide)

/-! ### C6: the ranking result -/

/-- C6: the RankingResult is the stable sort, ascending by InversionCount,
of the per-comparison-user counts taken in input-row order: the result is
sorted, comparison users with equal counts keep their relative order (the
filter at every count value is unchanged), and the pre-sort order is exactly
the order of the comparison rows in the input RatingTable. -/
theorem rankingResult_sorted_stable :
    ∀ (ratings : List (Nat × List Nat)) (target : Nat)
      (cs : List (Nat × List Nat)) (pre : List (Nat × Nat)),
      get_rating_collisions ratings target = some cs →
      countAll cs = some pre →
      make_recommendation_rating ratings target = some (sortByCount pre) ∧
      (sortByCount pre).Sorted (fun a b => a.2 ≤ b.2) ∧
      (∀ k : Nat, (sortByCount pre).filter (fun p => p.2 == k) =
        pre.filter (fun p => p.2 == k)) ∧
      pre.map Prod.fst = cs.map Prod.fst ∧
      cs.map Prod.fst = (ratings.filter (fun r => r.1 != target)).map Prod.fst := by
  intro ratings target cs pre hcs hpre
  refine ⟨make_recommendation_rating_eq _ _ _ _ hcs hpre, sortByCount_sorted pre,
    fun k => sortByCount_filter pre k, countAll_ids hpre, ?_⟩
  rw [get_rating_collisions_eq] at hcs
  rcases hh : ratings.head? with _ | first
  · rw [hh] at hcs
    simp at hcs
  rw [hh] at hcs
  simp only [Option.map_some', Option.some_bind] at hcs
  rcases ht : (ratings.filter (fun r => r.1 == target)).getLast? with _ | trow
  · rw [ht] at hcs
    simp at hcs
  rw [ht] at hcs
  simp only [Option.some_bind] at hcs
  exact collideAll_ids hcs

theorem rankingResult_sorted_stable_witness :
    make_recommendation_rating [(1, [1, 2]), (2, [1, 2]), (3, [2, 1]), (4, [1, 2])] 1 =
      some (sortByCount [(2, 0), (3, 1), (4, 0)]) ∧
    (sortByCount [(2, 0), (3, 1), (4, 0)]).Sorted (fun a b => a.2 ≤ b.2) ∧
    (sortByCount [(2, 0), (3, 1), (4, 0)]).filter (fun p => p.2 == 0) =
      ([(2, 0), (3, 1), (4, 0)] : List (Nat × Nat)).filter (fun p => p.2 == 0) ∧
    ([(2, 0), (3, 1), (4, 0)] : List (Nat × Nat)).map Prod.fst =
      ([(2, [1, 2]), (3, [2, 1]), (4, [1, 2])] : List (Nat × List Nat)).map Prod.fst := by
  have h := rankingResult_sorted_stable
    [(1, [1, 2]), (2, [1, 2]), (3, [2, 1]), (4, [1, 2])] 1
    [(2, [1, 2]), (3, [2, 1]), (4, [1, 2])] [(2, 0), (3, 1), (4, 0)]
    (by decide)
    (by simp [countAll, sort_and_count_inversions, sciFuel, mergeAndCount])
  exact ⟨h.1, h.2.1, h.2.2.1 0, h.2.2.2.1⟩
